import Mathlib

/-!
Verification of the fractalz dive engine against its specification.

The Rust sources are embedded shallowly: `f64` arithmetic is modelled exactly
over `ℚ` (every comparison and arithmetic step used by the claims below is
exact at the inputs considered, so control flow agrees with the `f64` run),
`u8`/`u32`/`usize` become `ℕ` with explicit wraparound where the code can
overflow, and the pseudo-random generator becomes an explicit stream position
threaded through the dive loop.

The file is organised as definitions first (the embedding of the sources),
then theorems (helper lemmas followed by the claim theorems).
-/

namespace Fractalz

/-- Complex numbers with exact rational components, mirroring `num_complex::Complex64`
as used by `src/fractal/julia.rs` (addition and multiplication only). -/
structure Complex64 where
  re : ℚ
  im : ℚ
  deriving DecidableEq

instance : Add Complex64 :=
  ⟨fun a b => ⟨a.re + b.re, a.im + b.im⟩⟩

instance : Mul Complex64 :=
  ⟨fun a b => ⟨a.re * b.re - a.im * b.im, a.re * b.im + a.im * b.re⟩⟩

/-- The escape-time loop of `Fractal::iterations` (src/fractal/julia.rs lines 17-27):
`while test z && iterations < u8::max_value() { z = step z; iterations += 1 }`,
generic in the continuation test and the iteration step so that every possible
`f64` comparison outcome (finite or not) is covered by some `test`. -/
def runLoop (test : Complex64 → Bool) (step : Complex64 → Complex64)
    (z : Complex64) (iterations : ℕ) : ℕ :=
  if h : test z = true ∧ iterations < 255 then
    runLoop test step (step z) (iterations + 1)
  else
    iterations
termination_by 255 - iterations
decreasing_by omega

/-- The cheap continuation test of `Julia::iterations`: `(z + z).re <= 4.0`. -/
def escapeTest (z : Complex64) : Bool :=
  decide ((z + z).re ≤ 4)

/-- The `Julia` fractal of src/fractal/julia.rs: a fixed complex parameter `c`. -/
structure Julia where
  c : Complex64
  deriving DecidableEq

/-- Embedding of `Julia::new` (src/fractal/julia.rs lines 9-13): family offset `(0.3, 0.5)`
plus the caller-supplied delta. -/
def Julia.new (x y : ℚ) : Julia :=
  ⟨⟨3/10 + x, 1/2 + y⟩⟩

/-- Embedding of `Julia::iterations` (src/fractal/julia.rs lines 17-27): iterate `z = z*z + c`
from `z = (x, y)` while `(z + z).re <= 4.0` and the count is below 255. -/
def Julia.iterations (j : Julia) (x y : ℚ) : ℕ :=
  runLoop escapeTest (fun z => z * z + j.c) ⟨x, y⟩ 0

/-- Modelled from the spec: the `Mandelbrot` evaluator lives in the fractalz
library crate, which is not under src/. Spec section 4.1 describes it as iterating
`z = z² + c` from `z = 0` with `c = (x, y)`, with the same cheap continuation
test and cap as the Julia variant. -/
def Mandelbrot.iterations (x y : ℚ) : ℕ :=
  runLoop escapeTest (fun z => z * z + Complex64.mk x y) ⟨0, 0⟩ 0

/-- The continuation test claim C1 asserts: `z.re² + z.im² ≤ 4`
(magnitude of `z` at most 2). Written from the claim's words, for comparison
with the test the source actually uses. -/
def magnitudeTest (z : Complex64) : Bool :=
  decide (z.re * z.re + z.im * z.im ≤ 4)

/-- The Julia evaluator as claim C1 describes it: same loop, but stopping
exactly when the magnitude of `z` exceeds 2. Written from the claim's words. -/
def Julia.iterationsMagnitude (j : Julia) (x y : ℚ) : ℕ :=
  runLoop magnitudeTest (fun z => z * z + j.c) ⟨x, y⟩ 0

/-- Embedding of `u32::count_ones` on the numeric value: the number of one bits. -/
def count_ones (n : ℕ) : ℕ :=
  if h : n = 0 then 0 else n % 2 + count_ones (n / 2)
termination_by n
decreasing_by exact Nat.div_lt_self (Nat.pos_of_ne_zero h) (by norm_num)

/-- Embedding of `u32::trailing_zeros` on the numeric value: the number of trailing zero
bits, 32 for the value 0 (the full bit width). -/
def trailing_zeros (n : ℕ) : ℕ :=
  if h : n = 0 then 32
  else if n % 2 = 1 then 0
  else 1 + trailing_zeros (n / 2)
termination_by n
decreasing_by exact Nat.div_lt_self (Nat.pos_of_ne_zero h) (by norm_num)

/-- Embedding of `is_power_of_four` (src/main.rs lines 137-139):
`n.count_ones() == 1 && n.trailing_zeros() % 2 == 0`. -/
def is_power_of_four (n : ℕ) : Bool :=
  count_ones n == 1 && trailing_zeros n % 2 == 0

/-- ASCII whitespace, modelling the characters `str::trim` strips in the
dimension strings at hand. -/
def isSpaceChar (c : Char) : Bool :=
  c = ' ' || c = '\t' || c = '\n' || c = '\r'

/-- Embedding of `str::trim`: strip whitespace from both ends. -/
def trimChars (s : List Char) : List Char :=
  ((s.dropWhile isSpaceChar).reverse.dropWhile isSpaceChar).reverse

/-- Embedding of `str::split(sep)`: split on every occurrence of `sep`, keeping empty pieces. -/
def splitChar (sep : Char) : List Char → List (List Char)
  | [] => [[]]
  | c :: rest =>
    match splitChar sep rest with
    | [] => [[]]
    | g :: gs => if c = sep then [] :: g :: gs else (c :: g) :: gs

/-- Numeric value of an ASCII digit. -/
def digitVal (c : Char) : ℕ :=
  c.toNat - 48

/-- Embedding of `str::parse::<u32>`: an optional leading plus sign, then at least one ASCII
digit, rejecting values outside the `u32` range. -/
def parseU32 (s : List Char) : Option ℕ :=
  let t := match s with
           | '+' :: rest => rest
           | _ => s
  if t.isEmpty then none
  else if t.all Char.isDigit then
    let v := t.foldl (fun acc c => acc * 10 + digitVal c) 0
    if v < 2 ^ 32 then some v else none
  else none

/-- Embedding of `ScreenDimensions::from_str` (src/main.rs lines 105-122): trim, split on
a single `x`, expect exactly two pieces, parse each as `u32`. No zero check
is performed on either dimension. -/
def ScreenDimensions.from_str (s : List Char) : Except String (ℕ × ℕ) :=
  let t := trimChars s
  match splitChar 'x' t with
  | [w, h] =>
    match parseU32 w with
    | none => .error "invalid width"
    | some wv =>
      match parseU32 h with
      | none => .error "invalid height"
      | some hv => .ok (wv, hv)
  | [_] => .error "invalid dimension format"
  | _ => .error "invalid dimension format"

/-- The seeded budget draw of the Mandelbrot arm (src/main.rs line 213):
`rng.gen_range(3, 40)`, i.e. the half-open interval `[3, 40)`. -/
def mandelbrotZoomRange : ℕ × ℕ :=
  (3, 40)

/-- The seeded budget draw of the Julia arm (src/main.rs line 236):
`rng.gen_range(0, 40)`, i.e. the half-open interval `[0, 40)`. -/
def juliaZoomRange : ℕ × ℕ :=
  (0, 40)

/-- Number of values a `gen_range(lo, hi)` draw can produce. -/
def rangeWidth (r : ℕ × ℕ) : ℕ :=
  r.2 - r.1

/-- Absolute difference on naturals, written so that `omega` can unfold it. -/
def natDist (a b : ℕ) : ℕ :=
  (a - b) + (b - a)

/-- Manhattan distance between two pixels: the 4-connected grid's path metric. -/
def manhattan (a b : ℕ × ℕ) : ℕ :=
  natDist a.1 b.1 + natDist a.2 b.2

/-- The successor function passed to `dijkstra` by `find_point`
(src/main.rs lines 44-59): the 4-connected in-bounds neighbours, each with
edge cost 1, pushed in the source's order. The source compares against the
`u32` value `width - 1`; with `width = 0` the `u32` subtraction would wrap,
but every claim below supplies an in-bounds start, which forces positive
dimensions. -/
def neighbours (w h : ℕ) (p : ℕ × ℕ) : List ((ℕ × ℕ) × ℕ) :=
  (if 0 < p.1 then [((p.1 - 1, p.2), 1)] else [])
    ++ (if 0 < p.2 then [((p.1, p.2 - 1), 1)] else [])
    ++ (if p.1 < w - 1 then [((p.1 + 1, p.2), 1)] else [])
    ++ (if p.2 < h - 1 then [((p.1, p.2 + 1), 1)] else [])

/-- Predicate `reachN w h n a c` holds when `c` is reachable from `a` in exactly `n`
steps of the `neighbours` successor function — the path-length semantics of
the grid graph `find_point` hands to `dijkstra`. -/
def reachN (w h : ℕ) : ℕ → (ℕ × ℕ) → (ℕ × ℕ) → Bool
  | 0, a, c => decide (a = c)
  | n + 1, a, c => (neighbours w h a).any (fun b => reachN w h n b.1 c)

/-- All pixels of a `w × h` raster. -/
def allCells (w h : ℕ) : List (ℕ × ℕ) :=
  (List.range w).flatMap (fun x => (List.range h).map (fun y => (x, y)))

/-- The pixels at exactly Manhattan distance `d` from `s`. -/
def ringCells (w h : ℕ) (s : ℕ × ℕ) (d : ℕ) : List (ℕ × ℕ) :=
  (allCells w h).filter (fun c => manhattan s c == d)

/-- Largest Manhattan distance between two in-bounds pixels. -/
def gridDiameter (w h : ℕ) : ℕ :=
  (w - 1) + (h - 1)

/-- Distance-ranked search: scan the rings around `s` outward, returning the
first match found. This is the behaviour the `pathfinding` crate documents for
`dijkstra` on this graph — explore nodes in nondecreasing distance order and
stop at the first node satisfying the success predicate — specialised to unit
edge costs, where distance rank on the full grid is Manhattan distance
(`reachN_manhattan_le` and `manhattan_reachN` below tie this back to the
source's `neighbours` function). -/
def ringSearch (w h : ℕ) (s : ℕ × ℕ) (pred : (ℕ × ℕ) → Bool) : ℕ → ℕ → Option (ℕ × ℕ)
  | _, 0 => none
  | d, fuel + 1 =>
    match (ringCells w h s d).find? pred with
    | some q => some q
    | none => ringSearch w h s pred (d + 1) fuel

/-- Embedding of `find_point` (src/main.rs lines 35-63): run `dijkstra` from `start` over
the 4-connected grid with unit edge costs, succeeding on the first pixel
satisfying `predicate`, and return that pixel (the last node of the returned
path). The raster is passed as its dimensions plus the per-pixel predicate. -/
def find_point (start : ℕ × ℕ) (w h : ℕ) (pred : (ℕ × ℕ) → Bool) : Option (ℕ × ℕ) :=
  ringSearch w h start pred 0 (gridDiameter w h + 1)

/-- Modelled from the spec: the `Camera` lives in the fractalz library crate,
not under src/. Spec section 4.2: a screen size, a center point in the plane
and a positive zoom factor. -/
structure Camera where
  screen_w : ℚ
  screen_h : ℚ
  center_re : ℚ
  center_im : ℚ
  zoom : ℚ
  deriving DecidableEq

/-- Modelled from the spec (section 4.2): `project` maps a pixel to the plane
coordinate centered at `center` and scaled by `1 / zoom` relative to the middle
of the screen. -/
def Camera.project (cam : Camera) (p : ℕ × ℕ) : ℚ × ℚ :=
  (cam.center_re + ((p.1 : ℚ) - cam.screen_w / 2) / cam.zoom,
   cam.center_im + ((p.2 : ℚ) - cam.screen_h / 2) / cam.zoom)

/-- Modelled from the spec (section 4.2, there named `zoom_to`; the dive loop
calls it `target_on`): recenter on the plane point under the target pixel and
then set `zoom` to the supplied new zoom. -/
def Camera.target_on (cam : Camera) (p : ℕ × ℕ) (newZoom : ℚ) : Camera :=
  { cam with
    center_re := (cam.project p).1
    center_im := (cam.project p).2
    zoom := newZoom }

/-- A grayscale raster, represented by its per-pixel luminance. -/
def Img : Type :=
  (ℕ × ℕ) → ℕ

/-- Modelled from the spec: `produce_image` lives in the fractalz library
crate, not under src/. Spec section 4.3: for every pixel, project through the
camera, evaluate the fractal, and paint the resulting count. -/
def produce_image (frac : ℚ × ℚ → ℕ) (cam : Camera) (painter : ℕ → ℕ) : Img :=
  fun p => painter (frac (cam.project p))

/-- Embedding of `find_target_point` (src/main.rs lines 147-169): blur the grayscale
rendering, search from a random start for the nearest dark pixel (luminance
at most 128); from the pixel found, search the edge image for the nearest
strong edge (intensity at least 128). The external blur (image crate) and the
library's edge operator are taken as function parameters, and the two
`gen_range(0, width)` / `gen_range(0, height)` draws as explicit arguments. -/
def find_target_point (blur edges : Img → Img) (frac : ℚ × ℚ → ℕ) (cam : Camera)
    (w h : ℕ) (r1 r2 : ℕ) : Option (ℕ × ℕ) :=
  let grayscaled := produce_image frac cam (fun i => i)
  let blurred := blur grayscaled
  let black_point := find_point (r1, r2) w h (fun p => decide (blurred p ≤ 128))
  black_point.bind (fun bp =>
    find_point bp w h (fun p => decide (edges grayscaled p ≥ 128)))

/-- The largest `usize` value. -/
def USIZE_MAX : ℕ :=
  2 ^ 64 - 1

/-- The `zoom_divisions -= 1` step on a `usize` (release semantics): wraps
around at zero. -/
def usizeDec (n : ℕ) : ℕ :=
  if n = 0 then USIZE_MAX else n - 1

/-- The dive loop's mutable state: the random stream position, the camera, the
remaining `zoom_divisions` budget, the number of completed loop passes, the
targets zoomed to so far, and the `(camera, tag)` argument pairs of the
`produce_debug_image` calls made so far (the debug artifacts are written to
disk and never read back by the loop). -/
structure DState where
  rng : ℕ
  cam : Camera
  budget : ℕ
  iters : ℕ
  targets : List (ℕ × ℕ)
  artifacts : List (Camera × ℕ)
  deriving DecidableEq

/-- One pass of the dive loop body (src/main.rs lines 250-258) after a target
`t` was found: halve the zoom onto the target, optionally record a debug
artifact tagged with the current `zoom_divisions` value `bCur`, then decrement
the budget. -/
def diveBody (flag : Bool) (s : DState) (t : ℕ × ℕ) (r' : ℕ) (bCur : ℕ) : DState :=
  let zoom := s.cam.zoom
  let cam' := s.cam.target_on t (zoom * (1 / 2))
  { rng := r'
    cam := cam'
    budget := usizeDec bCur
    iters := s.iters + 1
    targets := s.targets ++ [t]
    artifacts := if flag then s.artifacts ++ [(cam', bCur)] else s.artifacts }

/-- The dive loop with a positive remaining budget: ask the selector (whose
dependence on the random stream and the camera is abstracted as `ft`), stop if
it finds no target, otherwise run the body and stop if the decremented budget
reached zero. -/
def divePos (flag : Bool) (ft : ℕ → Camera → Option ((ℕ × ℕ) × ℕ)) :
    ℕ → DState → DState
  | 0, s => s
  | b + 1, s =>
    match ft s.rng s.cam with
    | none => s
    | some (t, r') => divePos flag ft b (diveBody flag s t r' (b + 1))

/-- The dive loop of `main` (src/main.rs lines 249-259) started with
`zoom_divisions = b`. The budget check sits after the decrement, so a run
entered with budget 0 that finds a target decrements `0usize`, wraps to
`USIZE_MAX`, and keeps diving. -/
def dive (flag : Bool) (ft : ℕ → Camera → Option ((ℕ × ℕ) × ℕ)) (b : ℕ)
    (s : DState) : DState :=
  if b = 0 then
    match ft s.rng s.cam with
    | none => s
    | some (t, r') => divePos flag ft USIZE_MAX (diveBody flag s t r' 0)
  else divePos flag ft b s

/-- The dive trajectory: everything in the dive state except the debug
artifacts. -/
def DState.proj (s : DState) : ℕ × Camera × ℕ × ℕ × List (ℕ × ℕ) :=
  (s.rng, s.cam, s.budget, s.iters, s.targets)

/-- A concrete camera for witness runs: the spec-modelled `Camera::new` state
for the default 800 by 600 screen, centered at the origin with unit zoom. -/
def camera0 : Camera :=
  ⟨800, 600, 0, 0, 1⟩

/-- A concrete initial dive state with budget 0, as the Julia arm can draw. -/
def state0 : DState :=
  ⟨0, camera0, 0, 0, [], []⟩

/-- A selector oracle that always finds the pixel `(0, 0)`, consuming two
random draws per call. -/
def ftAlways : ℕ → Camera → Option ((ℕ × ℕ) × ℕ) :=
  fun pos _ => some ((0, 0), pos + 2)

end Fractalz

namespace Fractalz

theorem Complex64.add_def (a b : Complex64) : a + b = ⟨a.re + b.re, a.im + b.im⟩ := rfl

theorem Complex64.mul_def (a b : Complex64) :
    a * b = ⟨a.re * b.re - a.im * b.im, a.re * b.im + a.im * b.re⟩ := rfl

theorem runLoop_unfold (test : Complex64 → Bool) (step : Complex64 → Complex64)
    (z : Complex64) (i : ℕ) :
    runLoop test step z i =
      if test z = true ∧ i < 255 then runLoop test step (step z) (i + 1) else i := by
  rw [runLoop]
  split <;> simp_all

theorem runLoop_le (test : Complex64 → Bool) (step : Complex64 → Complex64) :
    ∀ (fuel : ℕ) (z : Complex64) (i : ℕ), 255 - i ≤ fuel →
      i ≤ runLoop test step z i ∧ runLoop test step z i ≤ max i 255 := by
  intro fuel
  induction fuel with
  | zero =>
    intro z i h
    rw [runLoop_unfold]
    have hi : 255 ≤ i := by omega
    have : ¬ (test z = true ∧ i < 255) := by omega
    simp [this]
  | succ f ih =>
    intro z i h
    rw [runLoop_unfold]
    by_cases hc : test z = true ∧ i < 255
    · rw [if_pos hc]
      have := ih (step z) (i + 1) (by omega)
      omega
    · simp [hc]

/-- C1, as stated, is false: the claim says the loop's cheap continuation test is
equivalent to `z.re² + z.im² ≤ 4`, but the source test `(z + z).re <= 4.0` is a
real-part test. At the input point `(0, 10)` (magnitude 10, far outside the
escape radius) the code's Julia evaluator with the default parameter runs 2
iterations, while the magnitude-based evaluator of the claim stops immediately
with 0. -/
theorem julia_escape_test_counterexample :
    Julia.iterations (Julia.new 0 0) 0 10 = 2 ∧
      Julia.iterationsMagnitude (Julia.new 0 0) 0 10 = 0 := by
  constructor
  · rw [Julia.iterations, runLoop_unfold]
    norm_num [escapeTest, Julia.new, Complex64.add_def, Complex64.mul_def]
    rw [runLoop_unfold]
    norm_num [escapeTest, Complex64.add_def, Complex64.mul_def]
    rw [runLoop_unfold]
    norm_num [escapeTest, Complex64.add_def, Complex64.mul_def]
  · rw [Julia.iterationsMagnitude, runLoop_unfold]
    norm_num [magnitudeTest]

/-- C1 (amended): the iteration loop of `Julia::iterations` continues exactly
when `(z + z).re ≤ 4` — equivalently `z.re ≤ 2`, a test on the real part alone,
not on the magnitude — and the iteration count is below the 255 cap; the
Mandelbrot variant modelled from the spec uses this same continuation test. -/
theorem julia_escape_test_characterization :
    (∀ z : Complex64, escapeTest z = true ↔ z.re ≤ 2) ∧
      (∀ (j : Julia) (z : Complex64) (i : ℕ),
        runLoop escapeTest (fun w => w * w + j.c) z i =
          if z.re ≤ 2 ∧ i < 255 then
            runLoop escapeTest (fun w => w * w + j.c) (z * z + j.c) (i + 1)
          else i) ∧
      (∀ (j : Julia) (x y : ℚ),
        Julia.iterations j x y = runLoop escapeTest (fun w => w * w + j.c) ⟨x, y⟩ 0) ∧
      (∀ x y : ℚ,
        Mandelbrot.iterations x y =
          runLoop escapeTest (fun w => w * w + Complex64.mk x y) ⟨0, 0⟩ 0) := by
  have htest : ∀ z : Complex64, escapeTest z = true ↔ z.re ≤ 2 := by
    intro z
    simp only [escapeTest, Complex64.add_def, decide_eq_true_eq]
    constructor <;> intro h <;> linarith
  refine ⟨htest, ?_, fun j x y => rfl, fun x y => rfl⟩
  intro j z i
  rw [runLoop_unfold]
  by_cases hz : z.re ≤ 2
  · simp [htest z, hz]
  · simp [htest z, hz]

/-- C6: the escape loop terminates after at most 255 iterations and returns a
count of at most 255, for every continuation test (hence for every `f64`
comparison outcome, including non-finite coordinates, whose comparisons still
produce some boolean) and every step function; in particular every
`Julia::iterations` call returns at most 255. -/
theorem escape_count_bounded :
    (∀ (test : Complex64 → Bool) (step : Complex64 → Complex64) (z : Complex64),
      runLoop test step z 0 ≤ 255) ∧
      (∀ (j : Julia) (x y : ℚ), Julia.iterations j x y ≤ 255) ∧
      (∀ x y : ℚ, Mandelbrot.iterations x y ≤ 255) := by
  have h : ∀ (test : Complex64 → Bool) (step : Complex64 → Complex64) (z : Complex64),
      runLoop test step z 0 ≤ 255 := by
    intro test step z
    have := runLoop_le test step 255 z 0 (by omega)
    omega
  exact ⟨h, fun j x y => h _ _ _, fun x y => h _ _ _⟩

/-- C7: `Julia::iterations` is a pure function — two calls with the same fixed
complex parameter `c` and the same input point return the same count. -/
theorem julia_iterations_deterministic (j j' : Julia) (x y x' y' : ℚ)
    (hc : j.c = j'.c) (hx : x = x') (hy : y = y') :
    Julia.iterations j x y = Julia.iterations j' x' y' := by
  cases j; cases j'
  simp_all [Julia.iterations]

/-- Witness for C7 at a concrete parameter and point. -/
theorem julia_iterations_deterministic_witness :
    (Julia.new 0 0).c = (Julia.new 0 0).c ∧
      Julia.iterations (Julia.new 0 0) 1 1 = Julia.iterations (Julia.new 0 0) 1 1 :=
  ⟨rfl, julia_iterations_deterministic (Julia.new 0 0) (Julia.new 0 0) 1 1 1 1 rfl rfl rfl⟩

theorem count_ones_zero : count_ones 0 = 0 := by
  rw [count_ones]
  simp

theorem count_ones_ne_zero (n : ℕ) (h : n ≠ 0) :
    count_ones n = n % 2 + count_ones (n / 2) := by
  rw [count_ones]
  simp [h]

theorem count_ones_eq_zero (n : ℕ) : count_ones n = 0 ↔ n = 0 := by
  induction n using Nat.strong_induction_on with
  | _ n ih =>
    by_cases h : n = 0
    · simp [h, count_ones_zero]
    · rw [count_ones_ne_zero n h]
      constructor
      · intro he
        have h2 : count_ones (n / 2) = 0 := by omega
        have := (ih (n / 2) (Nat.div_lt_self (Nat.pos_of_ne_zero h) (by norm_num))).mp h2
        omega
      · intro he
        omega

theorem count_ones_two_pow (m : ℕ) : count_ones (2 ^ m) = 1 := by
  induction m with
  | zero => rw [pow_zero, count_ones_ne_zero 1 (by norm_num), count_ones_zero]
  | succ k ih =>
    rw [count_ones_ne_zero (2 ^ (k + 1)) (by positivity)]
    have h2 : 2 ^ (k + 1) % 2 = 0 := by
      rw [pow_succ]
      omega
    have h3 : 2 ^ (k + 1) / 2 = 2 ^ k := by
      rw [pow_succ]
      omega
    rw [h2, h3, ih]

theorem count_ones_eq_one (n : ℕ) (h : count_ones n = 1) : ∃ m, n = 2 ^ m := by
  induction n using Nat.strong_induction_on with
  | _ n ih =>
    have hn : n ≠ 0 := by
      intro h0
      rw [h0, count_ones_zero] at h
      omega
    rw [count_ones_ne_zero n hn] at h
    by_cases hodd : n % 2 = 1
    · have : count_ones (n / 2) = 0 := by omega
      have : n / 2 = 0 := (count_ones_eq_zero _).mp this
      have : n = 1 := by omega
      exact ⟨0, by omega⟩
    · have hco : count_ones (n / 2) = 1 := by omega
      obtain ⟨m, hm⟩ := ih (n / 2) (Nat.div_lt_self (Nat.pos_of_ne_zero hn) (by norm_num)) hco
      refine ⟨m + 1, ?_⟩
      have : n = 2 * (n / 2) := by omega
      rw [this, hm, pow_succ]
      ring

theorem trailing_zeros_two_pow (m : ℕ) : trailing_zeros (2 ^ m) = m := by
  induction m with
  | zero => rw [pow_zero, trailing_zeros]; norm_num
  | succ k ih =>
    rw [trailing_zeros]
    have h1 : (2 : ℕ) ^ (k + 1) ≠ 0 := by positivity
    have h2 : 2 ^ (k + 1) % 2 = 0 := by
      rw [pow_succ]
      omega
    have h3 : 2 ^ (k + 1) / 2 = 2 ^ k := by
      rw [pow_succ]
      omega
    simp [h1, h2, h3, ih]
    omega

/-- C9, as stated, is false in its second half: `ScreenDimensions::from_str`
performs no zero check, so the zero-width dimension string "0x600" is accepted
rather than rejected. -/
theorem from_str_accepts_zero_dimensions :
    ScreenDimensions.from_str "0x600".data = Except.ok (0, 600) := by
  rfl

/-- C9 (amended): a supersampling factor that is not a power of four is rejected
before the dive core runs — `is_power_of_four n` returns true exactly when
`n = 4^k` for some `k ≥ 0` — but zero-valued screen dimensions are not rejected:
`ScreenDimensions::from_str` parses them without any zero check, so the core can
receive zero dimensions. -/
theorem is_power_of_four_iff :
    (∀ n : ℕ, is_power_of_four n = true ↔ ∃ k, n = 4 ^ k) ∧
      (∃ w h : ℕ, w = 0 ∧ ScreenDimensions.from_str "0x600".data = Except.ok (w, h)) := by
  constructor
  · intro n
    simp only [is_power_of_four, Bool.and_eq_true, beq_iff_eq]
    constructor
    · rintro ⟨h1, h2⟩
      obtain ⟨m, hm⟩ := count_ones_eq_one n h1
      rw [hm, trailing_zeros_two_pow] at h2
      obtain ⟨k, hk⟩ : ∃ k, m = 2 * k := ⟨m / 2, by omega⟩
      refine ⟨k, ?_⟩
      rw [hm, hk, pow_mul]
      norm_num
    · rintro ⟨k, hk⟩
      have h4 : n = 2 ^ (2 * k) := by
        rw [hk, pow_mul]
        norm_num
      rw [h4, count_ones_two_pow, trailing_zeros_two_pow]
      omega
  · exact ⟨0, 600, rfl, by rfl⟩

/-- C8, as stated, is false: the Mandelbrot budget range `[3, 40)` offers 37
values while the Julia range `[0, 40)` offers 40, so the Mandelbrot range is
not wider than the Julia range. -/
theorem mandelbrot_range_not_wider :
    ¬ rangeWidth juliaZoomRange < rangeWidth mandelbrotZoomRange := by
  decide

theorem natDist_triangle (x y z : ℕ) : natDist x z ≤ natDist x y + natDist y z := by
  simp only [natDist]
  omega

theorem manhattan_triangle (a b c : ℕ × ℕ) :
    manhattan a c ≤ manhattan a b + manhattan b c := by
  simp only [manhattan]
  have h1 := natDist_triangle a.1 b.1 c.1
  have h2 := natDist_triangle a.2 b.2 c.2
  omega

theorem manhattan_self (a : ℕ × ℕ) : manhattan a a = 0 := by
  simp [manhattan, natDist]

theorem mem_neighbours_dist (w h : ℕ) (a : ℕ × ℕ) (b : (ℕ × ℕ) × ℕ)
    (hb : b ∈ neighbours w h a) : manhattan a b.1 = 1 := by
  simp only [neighbours, List.mem_append] at hb
  rcases hb with ((hb | hb) | hb) | hb <;>
    [skip; skip; skip; skip] <;>
    · split at hb <;> simp_all
      subst hb
      simp only [manhattan, natDist]
      omega

theorem mem_neighbours_left (w h : ℕ) (a : ℕ × ℕ) (ha : 0 < a.1) :
    ((a.1 - 1, a.2), 1) ∈ neighbours w h a := by
  simp [neighbours, ha]

theorem mem_neighbours_up (w h : ℕ) (a : ℕ × ℕ) (ha : 0 < a.2) :
    ((a.1, a.2 - 1), 1) ∈ neighbours w h a := by
  simp [neighbours, ha]

theorem mem_neighbours_right (w h : ℕ) (a : ℕ × ℕ) (ha : a.1 < w - 1) :
    ((a.1 + 1, a.2), 1) ∈ neighbours w h a := by
  simp [neighbours, ha]

theorem mem_neighbours_down (w h : ℕ) (a : ℕ × ℕ) (ha : a.2 < h - 1) :
    ((a.1, a.2 + 1), 1) ∈ neighbours w h a := by
  simp [neighbours, ha]

/-- Any `n`-step path through the `neighbours` graph covers at least the
Manhattan distance between its endpoints. -/
theorem reachN_manhattan_le (w h : ℕ) (c : ℕ × ℕ) :
    ∀ (n : ℕ) (a : ℕ × ℕ), reachN w h n a c = true → manhattan a c ≤ n := by
  intro n
  induction n with
  | zero =>
    intro a ha
    simp only [reachN, decide_eq_true_eq] at ha
    subst ha
    simp [manhattan_self]
  | succ k ih =>
    intro a ha
    simp only [reachN, List.any_eq_true] at ha
    obtain ⟨b, hb, hr⟩ := ha
    have h1 := mem_neighbours_dist w h a b hb
    have h2 := ih b.1 hr
    have h3 := manhattan_triangle a b.1 c
    omega

/-- Between any two in-bounds pixels there is a `neighbours`-path of length
exactly their Manhattan distance. -/
theorem manhattan_reachN (w h : ℕ) :
    ∀ (n : ℕ) (a c : ℕ × ℕ), a.1 < w → a.2 < h → c.1 < w → c.2 < h →
      manhattan a c = n → reachN w h n a c = true := by
  intro n
  induction n with
  | zero =>
    intro a c _ _ _ _ hm
    have hac : a = c := by
      obtain ⟨ax, ay⟩ := a
      obtain ⟨cx, cy⟩ := c
      simp only [manhattan, natDist] at hm
      have : ax = cx ∧ ay = cy := by omega
      simp [this.1, this.2]
    subst hac
    simp [reachN]
  | succ k ih =>
    intro a c ha1 ha2 hc1 hc2 hm
    simp only [reachN, List.any_eq_true]
    by_cases hx : a.1 < c.1
    · refine ⟨((a.1 + 1, a.2), 1), mem_neighbours_right w h a (by omega), ?_⟩
      refine ih (a.1 + 1, a.2) c (by omega) (by omega) hc1 hc2 ?_
      simp only [manhattan, natDist] at hm ⊢
      omega
    · by_cases hx' : c.1 < a.1
      · refine ⟨((a.1 - 1, a.2), 1), mem_neighbours_left w h a (by omega), ?_⟩
        refine ih (a.1 - 1, a.2) c (by omega) (by omega) hc1 hc2 ?_
        simp only [manhattan, natDist] at hm ⊢
        omega
      · by_cases hy : a.2 < c.2
        · refine ⟨((a.1, a.2 + 1), 1), mem_neighbours_down w h a (by omega), ?_⟩
          refine ih (a.1, a.2 + 1) c (by omega) (by omega) hc1 hc2 ?_
          simp only [manhattan, natDist] at hm ⊢
          omega
        · have hy' : c.2 < a.2 := by
            simp only [manhattan, natDist] at hm
            omega
          refine ⟨((a.1, a.2 - 1), 1), mem_neighbours_up w h a (by omega), ?_⟩
          refine ih (a.1, a.2 - 1) c (by omega) (by omega) hc1 hc2 ?_
          simp only [manhattan, natDist] at hm ⊢
          omega

theorem mem_allCells (w h : ℕ) (c : ℕ × ℕ) :
    c ∈ allCells w h ↔ c.1 < w ∧ c.2 < h := by
  obtain ⟨cx, cy⟩ := c
  simp [allCells, List.mem_flatMap, List.mem_map, List.mem_range]

theorem mem_ringCells (w h : ℕ) (s : ℕ × ℕ) (d : ℕ) (c : ℕ × ℕ) :
    c ∈ ringCells w h s d ↔ c.1 < w ∧ c.2 < h ∧ manhattan s c = d := by
  simp [ringCells, List.mem_filter, mem_allCells]
  tauto

theorem manhattan_le_gridDiameter (w h : ℕ) (s c : ℕ × ℕ)
    (h1 : s.1 < w) (h2 : s.2 < h) (h3 : c.1 < w) (h4 : c.2 < h) :
    manhattan s c ≤ gridDiameter w h := by
  simp only [manhattan, natDist, gridDiameter]
  omega

theorem ringSearch_eq_none (w h : ℕ) (s : ℕ × ℕ) (pred : (ℕ × ℕ) → Bool) :
    ∀ (fuel d : ℕ), ringSearch w h s pred d fuel = none ↔
      ∀ i, d ≤ i → i < d + fuel → (ringCells w h s i).find? pred = none := by
  intro fuel
  induction fuel with
  | zero =>
    intro d
    simp only [ringSearch]
    constructor
    · intro _ i hi1 hi2
      omega
    · intro _
      trivial
  | succ f ih =>
    intro d
    rw [ringSearch]
    cases hf : (ringCells w h s d).find? pred with
    | some q =>
      simp only [reduceCtorEq, false_iff, not_forall]
      exact ⟨d, le_refl d, by omega, by rw [hf]; simp⟩
    | none =>
      simp only [ih (d + 1)]
      constructor
      · intro hall i hi1 hi2
        rcases Nat.eq_or_lt_of_le hi1 with heq | hlt
        · rw [← heq]
          exact hf
        · exact hall i hlt (by omega)
      · intro hall i hi1 hi2
        exact hall i (by omega) (by omega)

theorem ringSearch_eq_some (w h : ℕ) (s : ℕ × ℕ) (pred : (ℕ × ℕ) → Bool) :
    ∀ (fuel d : ℕ) (q : ℕ × ℕ), ringSearch w h s pred d fuel = some q →
      ∃ i, d ≤ i ∧ i < d + fuel ∧ (ringCells w h s i).find? pred = some q ∧
        ∀ j, d ≤ j → j < i → (ringCells w h s j).find? pred = none := by
  intro fuel
  induction fuel with
  | zero =>
    intro d q hq
    simp [ringSearch] at hq
  | succ f ih =>
    intro d q hq
    rw [ringSearch] at hq
    cases hf : (ringCells w h s d).find? pred with
    | some q' =>
      rw [hf] at hq
      refine ⟨d, le_refl d, by omega, ?_, ?_⟩
      · rw [hf]
        exact hq
      · intro j hj1 hj2
        omega
    | none =>
      rw [hf] at hq
      obtain ⟨i, hi1, hi2, hi3, hi4⟩ := ih (d + 1) q hq
      refine ⟨i, by omega, by omega, hi3, ?_⟩
      intro j hj1 hj2
      rcases Nat.eq_or_lt_of_le hj1 with heq | hlt
      · rw [← heq]
        exact hf
      · exact hi4 j hlt hj2

theorem find_point_eq_none_of_pred_false (w h : ℕ) (s : ℕ × ℕ)
    (pred : (ℕ × ℕ) → Bool)
    (hall : ∀ c : ℕ × ℕ, c.1 < w → c.2 < h → pred c = false) :
    find_point s w h pred = none := by
  rw [find_point, ringSearch_eq_none]
  intro i _ _
  rw [List.find?_eq_none]
  intro x hx
  rw [mem_ringCells] at hx
  rw [hall x hx.1 hx.2.1]
  simp

theorem find_point_eq_some_props (w h : ℕ) (s q : ℕ × ℕ) (pred : (ℕ × ℕ) → Bool)
    (hq : find_point s w h pred = some q) :
    q.1 < w ∧ q.2 < h ∧ pred q = true := by
  obtain ⟨i, _, _, hfind, _⟩ :=
    ringSearch_eq_some w h s pred (gridDiameter w h + 1) 0 q hq
  have hqpred : pred q = true := List.find?_some hfind
  have hqmem := List.mem_of_find?_eq_some hfind
  rw [mem_ringCells] at hqmem
  exact ⟨hqmem.1, hqmem.2.1, hqpred⟩

/-- C4: on every raster with an in-bounds start pixel, `find_point` returns
`none` when no pixel satisfies the predicate, and otherwise returns a
satisfying pixel whose distance from the start over the 4-connected grid with
unit edge costs (the `neighbours` graph of the source) is minimal among all
satisfying pixels. -/
theorem find_point_nearest (w h : ℕ) (s : ℕ × ℕ) (pred : (ℕ × ℕ) → Bool)
    (hsx : s.1 < w) (hsy : s.2 < h) :
    ((∀ c : ℕ × ℕ, c.1 < w → c.2 < h → pred c = false) → find_point s w h pred = none) ∧
      (∀ c : ℕ × ℕ, c.1 < w → c.2 < h → pred c = true →
        ∃ q : ℕ × ℕ, find_point s w h pred = some q ∧ q.1 < w ∧ q.2 < h ∧
          pred q = true ∧ reachN w h (manhattan s q) s q = true ∧
          ∀ (c' : ℕ × ℕ) (n : ℕ), c'.1 < w → c'.2 < h → pred c' = true →
            reachN w h n s c' = true → manhattan s q ≤ n) := by
  constructor
  · exact find_point_eq_none_of_pred_false w h s pred
  · intro c hc1 hc2 hc3
    cases hfp : find_point s w h pred with
    | none =>
      exfalso
      rw [find_point, ringSearch_eq_none] at hfp
      have hd := manhattan_le_gridDiameter w h s c hsx hsy hc1 hc2
      have hnone := hfp (manhattan s c) (Nat.zero_le _) (by omega)
      rw [List.find?_eq_none] at hnone
      exact hnone c ((mem_ringCells w h s _ c).mpr ⟨hc1, hc2, rfl⟩) hc3
    | some q =>
      obtain ⟨i, _, _, hfind, hearlier⟩ :=
        ringSearch_eq_some w h s pred (gridDiameter w h + 1) 0 q hfp
      have hqpred : pred q = true := List.find?_some hfind
      have hqmem := List.mem_of_find?_eq_some hfind
      rw [mem_ringCells] at hqmem
      obtain ⟨hq1, hq2, hqd⟩ := hqmem
      refine ⟨q, rfl, hq1, hq2, hqpred,
        manhattan_reachN w h (manhattan s q) s q hsx hsy hq1 hq2 rfl, ?_⟩
      intro c' n hc'1 hc'2 hc'3 hreach
      have hle := reachN_manhattan_le w h c' n s hreach
      by_contra hcon
      have hlt : manhattan s c' < i := by omega
      have hnone := hearlier (manhattan s c') (Nat.zero_le _) hlt
      rw [List.find?_eq_none] at hnone
      exact hnone c' ((mem_ringCells w h s _ c').mpr ⟨hc'1, hc'2, rfl⟩) hc'3

/-- Witness for C4 on a concrete 2-by-2 raster where only pixel `(1, 1)`
satisfies the predicate. -/
theorem find_point_nearest_witness :
    (0 : ℕ) < 2 ∧ (0 : ℕ) < 2 ∧
      (((∀ c : ℕ × ℕ, c.1 < 2 → c.2 < 2 →
          (fun p => decide (p = ((1 : ℕ), (1 : ℕ)))) c = false) →
        find_point (0, 0) 2 2 (fun p => decide (p = ((1 : ℕ), (1 : ℕ)))) = none) ∧
      (∀ c : ℕ × ℕ, c.1 < 2 → c.2 < 2 →
          (fun p => decide (p = ((1 : ℕ), (1 : ℕ)))) c = true →
        ∃ q : ℕ × ℕ,
          find_point (0, 0) 2 2 (fun p => decide (p = ((1 : ℕ), (1 : ℕ)))) = some q ∧
          q.1 < 2 ∧ q.2 < 2 ∧
          (fun p => decide (p = ((1 : ℕ), (1 : ℕ)))) q = true ∧
          reachN 2 2 (manhattan (0, 0) q) (0, 0) q = true ∧
          ∀ (c' : ℕ × ℕ) (n : ℕ), c'.1 < 2 → c'.2 < 2 →
            (fun p => decide (p = ((1 : ℕ), (1 : ℕ)))) c' = true →
            reachN 2 2 n (0, 0) c' = true → manhattan (0, 0) q ≤ n)) :=
  ⟨by decide, by decide,
    find_point_nearest 2 2 (0, 0) (fun p => decide (p = ((1 : ℕ), (1 : ℕ))))
      (by decide) (by decide)⟩

/-- C8 (amended): the two seeded ranges share the upper bound 40, and the Julia
range `[0, 40)` is strictly wider than the Mandelbrot range `[3, 40)` — it is
the Mandelbrot draw that has the higher minimum, not the wider range. -/
theorem julia_range_wider :
    rangeWidth mandelbrotZoomRange < rangeWidth juliaZoomRange ∧
      juliaZoomRange.1 < mandelbrotZoomRange.1 ∧
      mandelbrotZoomRange.2 = juliaZoomRange.2 := by
  decide

theorem divePos_iters_le (flag : Bool) (ft : ℕ → Camera → Option ((ℕ × ℕ) × ℕ)) :
    ∀ (b : ℕ) (s : DState), s.iters ≤ (divePos flag ft b s).iters := by
  intro b
  induction b with
  | zero =>
    intro s
    simp [divePos]
  | succ k ih =>
    intro s
    rw [divePos]
    cases ft s.rng s.cam with
    | none => exact le_refl _
    | some tr =>
      have h1 : s.iters ≤ (diveBody flag s tr.1 tr.2 (k + 1)).iters := by
        simp [diveBody]
      exact le_trans h1 (ih _)

theorem divePos_pass_bound (flag : Bool) (ft : ℕ → Camera → Option ((ℕ × ℕ) × ℕ)) :
    ∀ (b : ℕ) (s : DState), (divePos flag ft b s).iters ≤ s.iters + b := by
  intro b
  induction b with
  | zero =>
    intro s
    simp [divePos]
  | succ k ih =>
    intro s
    rw [divePos]
    cases ft s.rng s.cam with
    | none =>
      show s.iters ≤ s.iters + (k + 1)
      omega
    | some tr =>
      show (divePos flag ft k (diveBody flag s tr.1 tr.2 (k + 1))).iters ≤ s.iters + (k + 1)
      have h1 : (diveBody flag s tr.1 tr.2 (k + 1)).iters = s.iters + 1 := by
        simp [diveBody]
      have h2 := ih (diveBody flag s tr.1 tr.2 (k + 1))
      omega

/-- C2 is right about the intended behaviour but the code breaks it at the
boundary the claim includes: the Julia arm's seeded range `[0, 40)` can draw a
budget of 0, and a dive entered with budget 0 that finds a target on its first
pass completes at least one iteration (the `usize` decrement wraps instead of
stopping the loop), exceeding the claimed bound of 0 iterations. -/
theorem dive_budget_zero_underflows :
    juliaZoomRange.1 = 0 ∧ 0 < (dive false ftAlways 0 state0).iters := by
  refine ⟨rfl, ?_⟩
  rw [dive, if_pos rfl]
  show 0 < (divePos false ftAlways USIZE_MAX
    (diveBody false state0 (0, 0) (state0.rng + 2) 0)).iters
  have h1 : (diveBody false state0 (0, 0) (state0.rng + 2) 0).iters = 1 := by
    simp [diveBody, state0]
  have h2 := divePos_iters_le false ftAlways USIZE_MAX
    (diveBody false state0 (0, 0) (state0.rng + 2) 0)
  omega

theorem divePos_zoom_inv (flag : Bool) (ft : ℕ → Camera → Option ((ℕ × ℕ) × ℕ)) :
    ∀ (b : ℕ) (s : DState),
      (divePos flag ft b s).cam.zoom * 2 ^ (divePos flag ft b s).iters =
        s.cam.zoom * 2 ^ s.iters := by
  intro b
  induction b with
  | zero =>
    intro s
    simp [divePos]
  | succ k ih =>
    intro s
    rw [divePos]
    cases ft s.rng s.cam with
    | none => rfl
    | some tr =>
      rw [ih (diveBody flag s tr.1 tr.2 (k + 1))]
      have hz : (diveBody flag s tr.1 tr.2 (k + 1)).cam.zoom = s.cam.zoom * (1 / 2) := by
        simp [diveBody, Camera.target_on]
      have hi : (diveBody flag s tr.1 tr.2 (k + 1)).iters = s.iters + 1 := by
        simp [diveBody]
      rw [hz, hi, pow_succ]
      ring

theorem dive_zoom_inv (flag : Bool) (ft : ℕ → Camera → Option ((ℕ × ℕ) × ℕ))
    (b : ℕ) (s : DState) :
    (dive flag ft b s).cam.zoom * 2 ^ (dive flag ft b s).iters =
      s.cam.zoom * 2 ^ s.iters := by
  rw [dive]
  by_cases hb : b = 0
  · rw [if_pos hb]
    cases hft : ft s.rng s.cam with
    | none => rfl
    | some tr =>
      rw [divePos_zoom_inv]
      have hz : (diveBody flag s tr.1 tr.2 0).cam.zoom = s.cam.zoom * (1 / 2) := by
        simp [diveBody, Camera.target_on]
      have hi : (diveBody flag s tr.1 tr.2 0).iters = s.iters + 1 := by
        simp [diveBody]
      rw [hz, hi, pow_succ]
      ring
  · rw [if_neg hb]
    exact divePos_zoom_inv flag ft b s

/-- C3: every dive pass that found a target sets the camera zoom to exactly
half the current zoom, and consequently a dive started from a fresh state
with initial zoom `z0` ends with zoom `z0 * (1/2)^k` where `k` is the number
of completed passes. -/
theorem dive_zoom_halving :
    (∀ (flag : Bool) (s : DState) (t : ℕ × ℕ) (r' bCur : ℕ),
      (diveBody flag s t r' bCur).cam.zoom = s.cam.zoom * (1 / 2)) ∧
      (∀ (flag : Bool) (ft : ℕ → Camera → Option ((ℕ × ℕ) × ℕ))
          (b rng0 bud0 : ℕ) (cam0 : Camera),
        (dive flag ft b ⟨rng0, cam0, bud0, 0, [], []⟩).cam.zoom =
          cam0.zoom *
            (1 / 2) ^ (dive flag ft b ⟨rng0, cam0, bud0, 0, [], []⟩).iters) := by
  constructor
  · intro flag s t r' bCur
    simp [diveBody, Camera.target_on]
  · intro flag ft b rng0 bud0 cam0
    have hinv := dive_zoom_inv flag ft b ⟨rng0, cam0, bud0, 0, [], []⟩
    simp only [pow_zero, mul_one] at hinv
    have h2 : (0 : ℚ) < 2 ^ (dive flag ft b ⟨rng0, cam0, bud0, 0, [], []⟩).iters := by
      positivity
    rw [one_div, inv_pow]
    field_simp
    linarith [hinv]

theorem divePos_proj_eq (f1 f2 : Bool) (ft : ℕ → Camera → Option ((ℕ × ℕ) × ℕ)) :
    ∀ (b : ℕ) (s1 s2 : DState), s1.proj = s2.proj →
      (divePos f1 ft b s1).proj = (divePos f2 ft b s2).proj := by
  intro b
  induction b with
  | zero =>
    intro s1 s2 hp
    simpa [divePos] using hp
  | succ k ih =>
    intro s1 s2 hp
    simp only [DState.proj, Prod.mk.injEq] at hp
    obtain ⟨hr, hc, hb, hi, ht⟩ := hp
    rw [divePos, divePos, hr, hc]
    cases ft s2.rng s2.cam with
    | none =>
      simp [DState.proj, hr, hc, hb, hi, ht]
    | some tr =>
      refine ih _ _ ?_
      simp [diveBody, DState.proj, hr, hc, hi, ht]

/-- C10: the debug-image flag cannot influence the dive trajectory. The loop
body routes the `produce_debug_image` call's inputs (the camera and the pass
tag) into the artifact channel only; two dives differing in the flag (or even
in what the debug call would produce) agree on the random stream position, the
camera, the remaining budget, the pass count and the target sequence. -/
theorem dive_debug_flag_noninterference
    (f1 f2 : Bool) (ft : ℕ → Camera → Option ((ℕ × ℕ) × ℕ)) (b : ℕ) (s : DState) :
    (dive f1 ft b s).proj = (dive f2 ft b s).proj := by
  rw [dive, dive]
  by_cases hb : b = 0
  · rw [if_pos hb, if_pos hb]
    cases hft : ft s.rng s.cam with
    | none => rfl
    | some tr =>
      refine divePos_proj_eq f1 f2 ft USIZE_MAX _ _ ?_
      simp [diveBody, DState.proj]
  · rw [if_neg hb, if_neg hb]
    exact divePos_proj_eq f1 f2 ft b s s rfl

/-- C5: the target-point selector returns a target exactly when both of its
nearest-match searches succeed; in particular it returns `none` whenever the
edge image has no pixel at or above the threshold; and a dive pass whose
selector finds no target leaves the dive state untouched (the loop stops). -/
theorem find_target_point_both_searches (blur edges : Img → Img)
    (frac : ℚ × ℚ → ℕ) (cam : Camera) (w h r1 r2 : ℕ)
    (hr1 : r1 < w) (hr2 : r2 < h) :
    (∀ t : ℕ × ℕ, find_target_point blur edges frac cam w h r1 r2 = some t ↔
      ∃ bp : ℕ × ℕ,
        find_point (r1, r2) w h
          (fun p => decide (blur (produce_image frac cam (fun i => i)) p ≤ 128)) =
            some bp ∧
        find_point bp w h
          (fun p => decide (edges (produce_image frac cam (fun i => i)) p ≥ 128)) =
            some t) ∧
      ((∀ p : ℕ × ℕ, p.1 < w → p.2 < h →
          edges (produce_image frac cam (fun i => i)) p < 128) →
        find_target_point blur edges frac cam w h r1 r2 = none) ∧
      (∀ (flag : Bool) (ft : ℕ → Camera → Option ((ℕ × ℕ) × ℕ)) (b : ℕ) (s : DState),
        ft s.rng s.cam = none → dive flag ft b s = s) := by
  refine ⟨?_, ?_, ?_⟩
  · intro t
    simp only [find_target_point]
    cases hbp : find_point (r1, r2) w h
        (fun p => decide (blur (produce_image frac cam (fun i => i)) p ≤ 128)) with
    | none =>
      simp
    | some bp0 =>
      simp only [Option.some_bind, Option.some.injEq]
      constructor
      · intro hc
        exact ⟨bp0, rfl, hc⟩
      · rintro ⟨bp, hbp2, h2⟩
        subst hbp2
        exact h2
  · intro hflat
    simp only [find_target_point]
    cases hbp : find_point (r1, r2) w h
        (fun p => decide (blur (produce_image frac cam (fun i => i)) p ≤ 128)) with
    | none =>
      rfl
    | some bp0 =>
      simp only [Option.some_bind]
      refine find_point_eq_none_of_pred_false w h bp0 _ ?_
      intro c hc1 hc2
      have := hflat c hc1 hc2
      simp only [ge_iff_le, decide_eq_false_iff_not, not_le]
      omega
  · intro flag ft b s hft
    rw [dive]
    by_cases hb : b = 0
    · rw [if_pos hb, hft]
    · rw [if_neg hb]
      obtain ⟨k, rfl⟩ : ∃ k, b = k + 1 := ⟨b - 1, by omega⟩
      rw [divePos, hft]

/-- Witness for C5 on a concrete 1 by 1 raster whose edge image is uniformly
zero: the selector returns no target. -/
theorem find_target_point_both_searches_witness :
    (0 : ℕ) < 1 ∧ (0 : ℕ) < 1 ∧
      find_target_point (fun g => g) (fun _ => fun _ => 0) (fun _ => 0) camera0
        1 1 0 0 = none :=
  ⟨by decide, by decide,
    (find_target_point_both_searches (fun g => g) (fun _ => fun _ => 0)
        (fun _ => 0) camera0 1 1 0 0 (by decide) (by decide)).2.1
      (fun p h1 h2 => by norm_num)⟩

end Fractalz
